import Mathlib

/-!
# Verification of the Baybayin transliteration engine

Shallow embedding of `src/tinig-baybayin/baybayin.py` (class
`BaybayinTransliterator`).  Strings are modelled as `List Char`; Python's
`str.replace` with a single-character pattern is modelled as a character-wise
substitution; `str.lower()` is modelled on the alphabet the engine
distinguishes (ASCII letters and Ñ/ñ), leaving all other characters fixed;
`str.split()` is modelled as splitting on runs of the whitespace characters
recognised by the regex-free scanner; the regex
`(?:ng|[kgtndbpmyrlwsh])[aeiou] | [aeiou] | (?:ng|[kgtndbpmyrlwsh])` driven by
`re.finditer` is modelled by the equivalent deterministic left-to-right
first-match scanner (`re.finditer` skips positions where no alternative
matches).
-/

namespace Baybayin

/-- The five vowel letters of the `[aeiou]` character class. -/
def vowelChars : List Char := ['a', 'e', 'i', 'o', 'u']

/-- The single-letter consonants of the `[kgtndbpmyrlwsh]` character class. -/
def consChars : List Char := ['k', 'g', 't', 'n', 'd', 'b', 'p', 'm', 'y', 'r', 'l', 'w', 's', 'h']

/-- Membership in the vowel class. -/
def isVowelCh (c : Char) : Bool := decide (c ∈ vowelChars)

/-- Membership in the single-letter consonant class. -/
def isConsCh (c : Char) : Bool := decide (c ∈ consChars)

/-- The whitespace characters `str.split()` splits on (ASCII whitespace). -/
def spaceChars : List Char := [' ', '\t', '\n', '\r', '\x0b', '\x0c']

/-- Whitespace test for the word splitter. -/
def isSpaceCh (c : Char) : Bool := decide (c ∈ spaceChars)

/-- `self.vowels`: standalone-vowel glyph table (e/i and o/u collapse). -/
def vowelLookup (s : List Char) : Option (List Char) :=
  if s = ['a'] then some ['ᜀ']
  else if s = ['e'] then some ['ᜁ']
  else if s = ['i'] then some ['ᜁ']
  else if s = ['o'] then some ['ᜂ']
  else if s = ['u'] then some ['ᜂ']
  else none

/-- The single-letter entries of `self.consonants` (r and l share ᜍ). -/
def consGlyphCh : Char → Option Char
  | 'k' => some 'ᜃ'
  | 'g' => some 'ᜄ'
  | 't' => some 'ᜆ'
  | 'd' => some 'ᜇ'
  | 'n' => some 'ᜈ'
  | 'p' => some 'ᜉ'
  | 'b' => some 'ᜊ'
  | 'm' => some 'ᜋ'
  | 'y' => some 'ᜌ'
  | 'r' => some 'ᜍ'
  | 'l' => some 'ᜍ'
  | 'w' => some 'ᜏ'
  | 's' => some 'ᜐ'
  | 'h' => some 'ᜑ'
  | _ => none

/-- The glyph of the `ng` digraph entry of `self.consonants`. -/
def ngGlyph : Char := 'ᜅ'

/-- `syllable in self.consonants`: lookup of a whole token among the
consonant-table keys (the 14 letters and the digraph `ng`). -/
def consLookup (s : List Char) : Option (List Char) :=
  match s with
  | [c] => (consGlyphCh c).map (fun g => [g])
  | [c, d] => if c = 'n' ∧ d = 'g' then some [ngGlyph] else none
  | _ => none

/-- `self.kudlit_i` (U+1712). -/
def kudlit_i : Char := 'ᜒ'

/-- `self.kudlit_o` (U+1713). -/
def kudlit_o : Char := 'ᜓ'

/-- `self.virama` (U+1714). -/
def virama : Char := '᜔'

/-- Model of Python `str.lower()` on one character: ASCII letters and Ñ are
lowered (the letters the engine distinguishes), everything else is fixed. -/
def lowerCh (c : Char) : Char :=
  if c = 'Ñ' then 'ñ'
  else if 65 ≤ c.toNat ∧ c.toNat ≤ 90 then Char.ofNat (c.toNat + 32)
  else c

/-- `text.lower()`. -/
def lowerL (l : List Char) : List Char := l.map lowerCh

/-- `text.replace(key, target)` for a one-character `key`: every occurrence of
`key` is replaced by `target`. -/
def replaceCh (key : Char) (target : List Char) : List Char → List Char
  | [] => []
  | c :: cs => (if c = key then target else [c]) ++ replaceCh key target cs

/-- The `replacements` dict of `normalize_text`, in insertion order. -/
def replacements : List (Char × List Char) :=
  [('c', ['k']), ('f', ['p']), ('j', ['d','y']), ('q', ['k']),
   ('v', ['b']), ('x', ['k','s']), ('z', ['s']), ('ñ', ['n','y'])]

/-- The `for foreign, tagalog in replacements.items()` loop. -/
def applyReps (rs : List (Char × List Char)) (l : List Char) : List Char :=
  rs.foldl (fun acc kv => replaceCh kv.1 kv.2 acc) l

/-- `normalize_text`: lower-case, then apply the foreign-letter replacements
in order. -/
def normalize_text (l : List Char) : List Char :=
  applyReps replacements (lowerL l)

/-- `tokenize_syllables`: the deterministic scanner equivalent to
`re.finditer` over `(CV)|(V)|(C)` with consonant unit `(?:ng|[class])` —
at each position try CV (digraph first), then V, then C (digraph first);
a character starting no match is skipped. -/
def tokenize_syllables : List Char → List (List Char)
  | [] => []
  | c :: [] =>
    if isVowelCh c then [[c]]
    else if isConsCh c then [[c]]
    else []
  | c :: g :: [] =>
    if isConsCh c ∧ isVowelCh g then [c, g] :: tokenize_syllables []
    else if isVowelCh c then [c] :: tokenize_syllables [g]
    else if c = 'n' ∧ g = 'g' then ['n', 'g'] :: tokenize_syllables []
    else if isConsCh c then [c] :: tokenize_syllables [g]
    else tokenize_syllables [g]
  | c :: g :: v :: r =>
    if c = 'n' ∧ g = 'g' ∧ isVowelCh v then ['n', 'g', v] :: tokenize_syllables r
    else if isConsCh c ∧ isVowelCh g then [c, g] :: tokenize_syllables (v :: r)
    else if isVowelCh c then [c] :: tokenize_syllables (g :: v :: r)
    else if c = 'n' ∧ g = 'g' then ['n', 'g'] :: tokenize_syllables (v :: r)
    else if isConsCh c then [c] :: tokenize_syllables (g :: v :: r)
    else tokenize_syllables (g :: v :: r)

/-- `syllable_to_baybayin`: encode one token. -/
def syllable_to_baybayin (syl : List Char) : List Char :=
  match syl with
  | [] => []
  | c :: cs =>
    match vowelLookup (c :: cs) with
    | some g => g
    | none =>
      match consLookup (c :: cs) with
      | some g => g ++ [virama]
      | none =>
        let bp : List Char × List Char :=
          if c = 'n' ∧ cs.head? = some 'g' then ([ngGlyph], cs.drop 1)
          else
            match consGlyphCh c with
            | some g => ([g], cs)
            | none => ([], cs)
        if bp.1 = [] then c :: cs
        else
          match bp.2 with
          | [] => bp.1
          | v :: _ =>
            if v = 'i' ∨ v = 'e' then bp.1 ++ [kudlit_i]
            else if v = 'o' ∨ v = 'u' then bp.1 ++ [kudlit_o]
            else if v = 'a' then bp.1
            else bp.1

/-- One word of `transliterate`'s loop body: tokenize, encode each syllable,
join with no separator. -/
def wordToBaybayin (w : List Char) : List Char :=
  ((tokenize_syllables w).map syllable_to_baybayin).flatten

/-- `text.split()`: split on whitespace runs, discarding empty pieces
(auxiliary scanner with an accumulator for the current word). -/
def splitWsAux : List Char → List Char → List (List Char)
  | [], acc => if acc = [] then [] else [acc.reverse]
  | c :: cs, acc =>
    if isSpaceCh c then
      if acc = [] then splitWsAux cs []
      else acc.reverse :: splitWsAux cs []
    else splitWsAux cs (c :: acc)

/-- `text.split()`. -/
def splitWs (l : List Char) : List (List Char) := splitWsAux l []

/-- `' '.join(words)`. -/
def joinSp : List (List Char) → List Char
  | [] => []
  | [w] => w
  | w :: v :: ws => w ++ ' ' :: joinSp (v :: ws)

/-- `transliterate` on a character list: empty guard, normalize, split into
words, encode each word, rejoin with single spaces. -/
def transliterateL (l : List Char) : List Char :=
  if l = [] then []
  else joinSp ((splitWs (normalize_text l)).map wordToBaybayin)

/-- `transliterate` at the `str` interface. -/
def transliterate (s : String) : String :=
  ⟨transliterateL s.data⟩

/-! ## Normalization: structure and idempotence -/

/-- The key set of the foreign-letter replacement table. -/
def keyChars : List Char := ['c', 'f', 'j', 'q', 'v', 'x', 'z', 'ñ']

theorem replaceCh_append (k : Char) (t a b : List Char) :
    replaceCh k t (a ++ b) = replaceCh k t a ++ replaceCh k t b := by
  induction a with
  | nil => rfl
  | cons c cs ih => simp [replaceCh, ih]

theorem applyReps_append (rs : List (Char × List Char)) (a b : List Char) :
    applyReps rs (a ++ b) = applyReps rs a ++ applyReps rs b := by
  induction rs generalizing a b with
  | nil => rfl
  | cons kv rs ih =>
    simp only [applyReps, List.foldl_cons] at *
    rw [replaceCh_append, ih]

theorem normalize_append (a b : List Char) :
    normalize_text (a ++ b) = normalize_text a ++ normalize_text b := by
  unfold normalize_text lowerL
  rw [List.map_append, applyReps_append]

theorem normalize_cons (c : Char) (l : List Char) :
    normalize_text (c :: l) = normalize_text [c] ++ normalize_text l := by
  have h : c :: l = [c] ++ l := rfl
  rw [h, normalize_append]

theorem toNat_ofNat_valid {n : Nat} (h : n.isValidChar) :
    (Char.ofNat n).toNat = n := by
  unfold Char.ofNat
  rw [dif_pos h]
  rfl

theorem lowerCh_idem (c : Char) : lowerCh (lowerCh c) = lowerCh c := by
  by_cases hn : c = 'Ñ'
  · subst hn; decide
  · by_cases hu : 65 ≤ c.toNat ∧ c.toNat ≤ 90
    · have h1 : lowerCh c = Char.ofNat (c.toNat + 32) := by
        rw [lowerCh, if_neg hn, if_pos hu]
      have hv : (c.toNat + 32).isValidChar := Or.inl (by omega)
      have ht : (lowerCh c).toNat = c.toNat + 32 := by
        rw [h1, toNat_ofNat_valid hv]
      have hne : lowerCh c ≠ 'Ñ' := by
        intro h
        have h209 : (lowerCh c).toNat = 209 := by rw [h]; decide
        omega
      have hno : ¬(65 ≤ (lowerCh c).toNat ∧ (lowerCh c).toNat ≤ 90) := by omega
      rw [lowerCh, if_neg hne, if_neg hno]
    · have h1 : lowerCh c = c := by
        rw [lowerCh, if_neg hn, if_neg hu]
      rw [h1]
      exact h1

theorem applyReps_single_notkey (d : Char) (h : d ∉ keyChars) :
    applyReps replacements [d] = [d] := by
  simp only [keyChars, List.mem_cons, List.mem_singleton, not_or] at h
  obtain ⟨h1, h2, h3, h4, h5, h6, h7, h8⟩ := h
  simp [applyReps, replacements, replaceCh, h1, h2, h3, h4, h5, h6, h7, h8]

theorem normalize_single_idem (c : Char) :
    normalize_text (normalize_text [c]) = normalize_text [c] := by
  have hbase : normalize_text [c] = applyReps replacements [lowerCh c] := rfl
  by_cases hk : lowerCh c ∈ keyChars
  · have h8 : lowerCh c = 'c' ∨ lowerCh c = 'f' ∨ lowerCh c = 'j' ∨ lowerCh c = 'q' ∨
        lowerCh c = 'v' ∨ lowerCh c = 'x' ∨ lowerCh c = 'z' ∨ lowerCh c = 'ñ' := by
      simpa [keyChars] using hk
    rcases h8 with h | h | h | h | h | h | h | h <;> rw [hbase, h] <;> decide
  · rw [hbase, applyReps_single_notkey _ hk]
    have h2 : normalize_text [lowerCh c] = applyReps replacements [lowerCh (lowerCh c)] := rfl
    rw [h2, lowerCh_idem, applyReps_single_notkey _ hk]

/-- C4: normalization is idempotent. `normalize_text` lower-cases and
replaces foreign letters by native-letter strings; the substitution targets
contain no key of the table, so a second pass is the identity. -/
theorem normalize_text_idempotent (l : List Char) :
    normalize_text (normalize_text l) = normalize_text l := by
  induction l with
  | nil => rfl
  | cons c cs ih =>
    rw [normalize_cons, normalize_append, normalize_single_idem, ih]

/-! ## Tokenizer: shape of the produced tokens -/

/-- The shapes a token of `tokenize_syllables` can take: V, CV (single-letter
consonant), CV with the `ng` digraph, the bare digraph `ng`, or a bare
single-letter consonant. -/
def goodToken (t : List Char) : Prop :=
  (∃ v, isVowelCh v = true ∧ t = [v]) ∨
  (∃ c v, isConsCh c = true ∧ isVowelCh v = true ∧ t = [c, v]) ∨
  (∃ v, isVowelCh v = true ∧ t = ['n', 'g', v]) ∨
  t = ['n', 'g'] ∨
  (∃ c, isConsCh c = true ∧ t = [c])

theorem mem_of_isVowelCh {v : Char} (h : isVowelCh v = true) : v ∈ vowelChars :=
  of_decide_eq_true h

theorem mem_of_isConsCh {c : Char} (h : isConsCh c = true) : c ∈ consChars :=
  of_decide_eq_true h

theorem tokenize_syllables_good : ∀ l, ∀ t ∈ tokenize_syllables l, goodToken t := by
  intro l
  induction l using tokenize_syllables.induct with
  | case1 => intro t ht; simp [tokenize_syllables] at ht
  | case2 c hv =>
    intro t ht
    simp [tokenize_syllables, hv] at ht
    exact Or.inl ⟨c, hv, ht⟩
  | case3 c hv hc =>
    intro t ht
    simp [tokenize_syllables, hv, hc] at ht
    exact Or.inr (Or.inr (Or.inr (Or.inr ⟨c, hc, ht⟩)))
  | case4 c hv hc =>
    intro t ht
    simp [tokenize_syllables, hv, hc] at ht
  | case5 c g h ih =>
    intro t ht
    have e : tokenize_syllables [c, g] = [c, g] :: tokenize_syllables [] := by
      simp [tokenize_syllables, h.1, h.2]
    rw [e] at ht
    rcases List.mem_cons.mp ht with rfl | ht
    · exact Or.inr (Or.inl ⟨c, g, h.1, h.2, rfl⟩)
    · exact ih t ht
  | case6 c g hn hv ih =>
    intro t ht
    have e : tokenize_syllables [c, g] = [c] :: tokenize_syllables [g] := by
      simp [tokenize_syllables, hn, hv]
    rw [e] at ht
    rcases List.mem_cons.mp ht with rfl | ht
    · exact Or.inl ⟨c, hv, rfl⟩
    · exact ih t ht
  | case7 c g hn hv h ih =>
    intro t ht
    obtain ⟨rfl, rfl⟩ := h
    have e : tokenize_syllables ['n', 'g'] = ['n', 'g'] :: tokenize_syllables [] := by
      decide
    rw [e] at ht
    rcases List.mem_cons.mp ht with rfl | ht
    · exact Or.inr (Or.inr (Or.inr (Or.inl rfl)))
    · exact ih t ht
  | case8 c g hn hv hng hc ih =>
    intro t ht
    have hgv : isVowelCh g = false := by simpa [hc] using hn
    have e : tokenize_syllables [c, g] = [c] :: tokenize_syllables [g] := by
      simp [tokenize_syllables, hgv, hv, hng, hc]
    rw [e] at ht
    rcases List.mem_cons.mp ht with rfl | ht
    · exact Or.inr (Or.inr (Or.inr (Or.inr ⟨c, hc, rfl⟩)))
    · exact ih t ht
  | case9 c g hn hv hng hc ih =>
    intro t ht
    have e : tokenize_syllables [c, g] = tokenize_syllables [g] := by
      simp [tokenize_syllables, hn, hv, hng, hc]
    rw [e] at ht
    exact ih t ht
  | case10 c g v r h ih =>
    intro t ht
    obtain ⟨rfl, rfl, hv⟩ := h
    have e : tokenize_syllables ('n' :: 'g' :: v :: r) =
        ['n', 'g', v] :: tokenize_syllables r := by
      simp [tokenize_syllables, hv]
    rw [e] at ht
    rcases List.mem_cons.mp ht with rfl | ht
    · exact Or.inr (Or.inr (Or.inl ⟨v, hv, rfl⟩))
    · exact ih t ht
  | case11 c g v r hn h ih =>
    intro t ht
    have e : tokenize_syllables (c :: g :: v :: r) =
        [c, g] :: tokenize_syllables (v :: r) := by
      simp [tokenize_syllables, hn, h.1, h.2]
    rw [e] at ht
    rcases List.mem_cons.mp ht with rfl | ht
    · exact Or.inr (Or.inl ⟨c, g, h.1, h.2, rfl⟩)
    · exact ih t ht
  | case12 c g v r hn hcv hv ih =>
    intro t ht
    have e : tokenize_syllables (c :: g :: v :: r) =
        [c] :: tokenize_syllables (g :: v :: r) := by
      simp [tokenize_syllables, hn, hcv, hv]
    rw [e] at ht
    rcases List.mem_cons.mp ht with rfl | ht
    · exact Or.inl ⟨c, hv, rfl⟩
    · exact ih t ht
  | case13 c g v r hn hcv hv h ih =>
    intro t ht
    obtain ⟨rfl, rfl⟩ := h
    have hvv : isVowelCh v = false := by simpa using hn
    have e : tokenize_syllables ('n' :: 'g' :: v :: r) =
        ['n', 'g'] :: tokenize_syllables (v :: r) := by
      simp [tokenize_syllables, hvv, hcv, hv]
    rw [e] at ht
    rcases List.mem_cons.mp ht with rfl | ht
    · exact Or.inr (Or.inr (Or.inr (Or.inl rfl)))
    · exact ih t ht
  | case14 c g v r hn hcv hv hng hc ih =>
    intro t ht
    have hgv : isVowelCh g = false := by simpa [hc] using hcv
    have e : tokenize_syllables (c :: g :: v :: r) =
        [c] :: tokenize_syllables (g :: v :: r) := by
      simp [tokenize_syllables, hn, hgv, hv, hng, hc]
    rw [e] at ht
    rcases List.mem_cons.mp ht with rfl | ht
    · exact Or.inr (Or.inr (Or.inr (Or.inr ⟨c, hc, rfl⟩)))
    · exact ih t ht
  | case15 c g v r hn hcv hv hng hc ih =>
    intro t ht
    have e : tokenize_syllables (c :: g :: v :: r) =
        tokenize_syllables (g :: v :: r) := by
      simp [tokenize_syllables, hn, hcv, hv, hng, hc]
    rw [e] at ht
    exact ih t ht

/-! ## Encoder output alphabet -/

/-- A character allowed in `transliterate`'s output: a Baybayin code point
(U+1700–U+1714) or the ASCII space used as word separator. -/
def outputAlphabet (ch : Char) : Prop :=
  (0x1700 ≤ ch.toNat ∧ ch.toNat ≤ 0x1714) ∨ ch = ' '

instance (ch : Char) : Decidable (outputAlphabet ch) := by
  unfold outputAlphabet
  infer_instance

theorem encode_V_range :
    ∀ v ∈ vowelChars, ∀ ch ∈ syllable_to_baybayin [v], outputAlphabet ch := by decide

theorem encode_CV_range :
    ∀ c ∈ consChars, ∀ v ∈ vowelChars,
      ∀ ch ∈ syllable_to_baybayin [c, v], outputAlphabet ch := by decide

theorem encode_ngV_range :
    ∀ v ∈ vowelChars, ∀ ch ∈ syllable_to_baybayin ['n', 'g', v], outputAlphabet ch := by decide

theorem encode_ng_range :
    ∀ ch ∈ syllable_to_baybayin ['n', 'g'], outputAlphabet ch := by decide

theorem encode_C_range :
    ∀ c ∈ consChars, ∀ ch ∈ syllable_to_baybayin [c], outputAlphabet ch := by decide

theorem goodToken_encode_range {t : List Char} (h : goodToken t) :
    ∀ ch ∈ syllable_to_baybayin t, outputAlphabet ch := by
  rcases h with ⟨v, hv, rfl⟩ | ⟨c, v, hc, hv, rfl⟩ | ⟨v, hv, rfl⟩ | rfl | ⟨c, hc, rfl⟩
  · exact encode_V_range v (mem_of_isVowelCh hv)
  · exact encode_CV_range c (mem_of_isConsCh hc) v (mem_of_isVowelCh hv)
  · exact encode_ngV_range v (mem_of_isVowelCh hv)
  · exact encode_ng_range
  · exact encode_C_range c (mem_of_isConsCh hc)

theorem wordToBaybayin_range (w : List Char) :
    ∀ ch ∈ wordToBaybayin w, outputAlphabet ch := by
  intro ch hch
  unfold wordToBaybayin at hch
  rw [List.mem_flatten] at hch
  obtain ⟨s, hs, hchs⟩ := hch
  rw [List.mem_map] at hs
  obtain ⟨t, ht, rfl⟩ := hs
  exact goodToken_encode_range (tokenize_syllables_good w t ht) ch hchs

theorem joinSp_mem {P : Char → Prop} (hsp : P ' ') :
    ∀ ws : List (List Char), (∀ w ∈ ws, ∀ ch ∈ w, P ch) → ∀ ch ∈ joinSp ws, P ch := by
  intro ws
  induction ws with
  | nil => intro _ ch hch; simp [joinSp] at hch
  | cons w ws ih =>
    intro hall ch hch
    cases ws with
    | nil =>
      exact hall w (by simp) ch (by simpa [joinSp] using hch)
    | cons v vs =>
      have e : joinSp (w :: v :: vs) = w ++ ' ' :: joinSp (v :: vs) := rfl
      rw [e] at hch
      rcases List.mem_append.mp hch with h | h
      · exact hall w (by simp) ch h
      · rcases List.mem_cons.mp h with rfl | h
        · exact hsp
        · exact ih (fun u hu => hall u (List.mem_cons_of_mem _ hu)) ch h

/-- C10: every character of `transliterate`'s output is a Baybayin code
point in U+1700–U+1714 or an ASCII space; in particular no digit, punctuation
mark, or other unmapped input character reaches the output literally. -/
theorem transliterate_output_alphabet (s : String) :
    ∀ ch ∈ (transliterate s).data, outputAlphabet ch := by
  intro ch hch
  have hd : (transliterate s).data = transliterateL s.data := rfl
  rw [hd] at hch
  unfold transliterateL at hch
  by_cases h0 : s.data = []
  · rw [if_pos h0] at hch
    simp at hch
  · rw [if_neg h0] at hch
    refine joinSp_mem (Or.inr rfl) _ ?_ ch hch
    intro w hw ch' hch'
    rw [List.mem_map] at hw
    obtain ⟨w0, _, rfl⟩ := hw
    exact wordToBaybayin_range w0 ch' hch'

/-- Closed witness for the output-alphabet invariant at a concrete output
character of `transliterate "ako"`. -/
theorem transliterate_output_alphabet_witness : outputAlphabet 'ᜀ' :=
  transliterate_output_alphabet "ako" 'ᜀ' (by decide)

/-! ## Coverage of the tokenizer over the native alphabet -/

/-- C2 (amended): coverage holds for words made only of table letters — over
the vowel and consonant classes the tokens concatenate back to the word (the
regex scanner skips nothing there); characters outside the classes are
dropped, so unrestricted coverage fails. -/
theorem tokenize_flatten_of_alpha :
    ∀ l : List Char, (∀ c ∈ l, isVowelCh c = true ∨ isConsCh c = true) →
      (tokenize_syllables l).flatten = l := by
  intro l
  induction l using tokenize_syllables.induct with
  | case1 => intro _; rfl
  | case2 c hv => intro _; simp [tokenize_syllables, hv]
  | case3 c hv hc => intro _; simp [tokenize_syllables, hv, hc]
  | case4 c hv hc =>
    intro h
    rcases h c (by simp) with h1 | h1
    · exact absurd h1 hv
    · exact absurd h1 hc
  | case5 c g h ih =>
    intro hall
    have e : tokenize_syllables [c, g] = [c, g] :: tokenize_syllables [] := by
      simp [tokenize_syllables, h.1, h.2]
    rw [e, List.flatten_cons, ih (by simp)]
    rfl
  | case6 c g hn hv ih =>
    intro hall
    have e : tokenize_syllables [c, g] = [c] :: tokenize_syllables [g] := by
      simp [tokenize_syllables, hn, hv]
    rw [e, List.flatten_cons, ih (fun x hx => hall x (List.mem_cons_of_mem _ hx))]
    rfl
  | case7 c g hn hv h ih =>
    intro hall
    obtain ⟨rfl, rfl⟩ := h
    have e : tokenize_syllables ['n', 'g'] = ['n', 'g'] :: tokenize_syllables [] := by
      decide
    rw [e, List.flatten_cons, ih (by simp)]
    rfl
  | case8 c g hn hv hng hc ih =>
    intro hall
    have hgv : isVowelCh g = false := by simpa [hc] using hn
    have e : tokenize_syllables [c, g] = [c] :: tokenize_syllables [g] := by
      simp [tokenize_syllables, hgv, hv, hng, hc]
    rw [e, List.flatten_cons, ih (fun x hx => hall x (List.mem_cons_of_mem _ hx))]
    rfl
  | case9 c g hn hv hng hc ih =>
    intro hall
    rcases hall c (by simp) with h1 | h1
    · exact absurd h1 hv
    · exact absurd h1 hc
  | case10 c g v r h ih =>
    intro hall
    obtain ⟨rfl, rfl, hv⟩ := h
    have e : tokenize_syllables ('n' :: 'g' :: v :: r) =
        ['n', 'g', v] :: tokenize_syllables r := by
      simp [tokenize_syllables, hv]
    have hsub : ∀ x ∈ r, isVowelCh x = true ∨ isConsCh x = true := by
      intro x hx
      exact hall x (by simp [hx])
    rw [e, List.flatten_cons, ih hsub]
    rfl
  | case11 c g v r hn h ih =>
    intro hall
    have e : tokenize_syllables (c :: g :: v :: r) =
        [c, g] :: tokenize_syllables (v :: r) := by
      simp [tokenize_syllables, hn, h.1, h.2]
    have hsub : ∀ x ∈ v :: r, isVowelCh x = true ∨ isConsCh x = true := by
      intro x hx
      exact hall x (by simp [List.mem_cons.mp hx])
    rw [e, List.flatten_cons, ih hsub]
    rfl
  | case12 c g v r hn hcv hv ih =>
    intro hall
    have e : tokenize_syllables (c :: g :: v :: r) =
        [c] :: tokenize_syllables (g :: v :: r) := by
      simp [tokenize_syllables, hn, hcv, hv]
    rw [e, List.flatten_cons, ih (fun x hx => hall x (List.mem_cons_of_mem _ hx))]
    rfl
  | case13 c g v r hn hcv hv h ih =>
    intro hall
    obtain ⟨rfl, rfl⟩ := h
    have hvv : isVowelCh v = false := by simpa using hn
    have e : tokenize_syllables ('n' :: 'g' :: v :: r) =
        ['n', 'g'] :: tokenize_syllables (v :: r) := by
      simp [tokenize_syllables, hvv, hcv, hv]
    have hsub : ∀ x ∈ v :: r, isVowelCh x = true ∨ isConsCh x = true := by
      intro x hx
      exact hall x (List.mem_cons_of_mem _ (List.mem_cons_of_mem _ hx))
    rw [e, List.flatten_cons, ih hsub]
    rfl
  | case14 c g v r hn hcv hv hng hc ih =>
    intro hall
    have hgv : isVowelCh g = false := by simpa [hc] using hcv
    have e : tokenize_syllables (c :: g :: v :: r) =
        [c] :: tokenize_syllables (g :: v :: r) := by
      simp [tokenize_syllables, hn, hgv, hv, hng, hc]
    rw [e, List.flatten_cons, ih (fun x hx => hall x (List.mem_cons_of_mem _ hx))]
    rfl
  | case15 c g v r hn hcv hv hng hc ih =>
    intro hall
    rcases hall c (by simp) with h1 | h1
    · exact absurd h1 hv
    · exact absurd h1 hc

/-! ## Whitespace handling -/

theorem normalize_space_fix : ∀ c ∈ spaceChars, normalize_text [c] = [c] := by decide

theorem normalize_of_spaces :
    ∀ l : List Char, (∀ c ∈ l, isSpaceCh c = true) → normalize_text l = l := by
  intro l
  induction l with
  | nil => intro _; rfl
  | cons c cs ih =>
    intro h
    rw [normalize_cons, normalize_space_fix c (of_decide_eq_true (h c (by simp))),
      ih (fun x hx => h x (List.mem_cons_of_mem _ hx))]
    rfl

theorem splitWsAux_spaces :
    ∀ l : List Char, (∀ c ∈ l, isSpaceCh c = true) → splitWsAux l [] = [] := by
  intro l
  induction l with
  | nil => intro _; rfl
  | cons c cs ih =>
    intro h
    have hc : isSpaceCh c = true := h c (by simp)
    simp only [splitWsAux, hc, if_true, if_pos rfl]
    exact ih (fun x hx => h x (List.mem_cons_of_mem _ hx))

/-! ## Claim theorems -/

/-- C1: the orchestrator produces the four literal single-word outputs of
the spec. -/
theorem transliterate_literal_scenarios :
    transliterate "ako" = "ᜀᜃᜓ" ∧ transliterate "ikaw" = "ᜁᜃᜏ᜔" ∧
    transliterate "maganda" = "ᜋᜄᜈ᜔ᜇ" ∧ transliterate "salamat" = "ᜐᜍᜋᜆ᜔" := by
  refine ⟨by decide, by decide, by decide, by decide⟩

/-- C2 (counterexample): the word `"1"` contains no whitespace, yet the
concatenation of its tokens is empty, not `"1"` — `re.finditer` drops the
character, so coverage fails. -/
theorem tokenize_coverage_counterexample :
    isSpaceCh '1' = false ∧ (tokenize_syllables ['1']).flatten ≠ ['1'] := by
  decide

/-- C2 (amended): coverage holds for words made only of letters of the
vowel and consonant classes; the witness is the word `"ako"`. -/
theorem tokenize_coverage_witness :
    (tokenize_syllables "ako".data).flatten = "ako".data :=
  tokenize_flatten_of_alpha "ako".data (by decide)

/-- C3 (counterexample): a character matching no syllable shape is dropped,
not passed through: `transliterate "1"` is empty and `'1'` does not occur in
the output. -/
theorem unclassified_char_dropped :
    transliterate "1" = "" ∧ '1' ∉ (transliterate "1").data := by
  decide

/-- C3 (amended): at a position where no shape matches, the tokenizer skips
the character without emitting any token, so it never reaches the encoder
or the output. -/
theorem tokenize_skips_unclassified (c : Char) (rest : List Char)
    (hv : c ∉ vowelChars) (hc : c ∉ consChars) :
    tokenize_syllables (c :: rest) = tokenize_syllables rest := by
  have hvb : isVowelCh c = false := by simp [isVowelCh, hv]
  have hcb : isConsCh c = false := by simp [isConsCh, hc]
  have hcn : c ≠ 'n' := by
    intro h
    subst h
    exact absurd hcb (by decide)
  cases rest with
  | nil => simp [tokenize_syllables, hvb, hcb]
  | cons g rest' =>
    cases rest' with
    | nil => simp [tokenize_syllables, hvb, hcb, hcn]
    | cons v r => simp [tokenize_syllables, hvb, hcb, hcn]

/-- Closed witness for the skip behaviour: `'1'` before `"ab"` is consumed
with no token. -/
theorem tokenize_skips_unclassified_witness :
    tokenize_syllables ('1' :: "ab".data) = tokenize_syllables "ab".data :=
  tokenize_skips_unclassified '1' "ab".data (by decide) (by decide)

/-- C5: ordered-choice first-match — a consonant followed by a vowel always
opens a CV token, `ng` before a vowel is taken as one CV unit, and the
cluster word `"sta"` splits as `s` then `ta`. -/
theorem tokenize_first_match_policy :
    (∀ c v r, c ∈ consChars → v ∈ vowelChars →
       tokenize_syllables (c :: v :: r) = [c, v] :: tokenize_syllables r) ∧
    (∀ v r, v ∈ vowelChars →
       tokenize_syllables ('n' :: 'g' :: v :: r) = ['n', 'g', v] :: tokenize_syllables r) ∧
    tokenize_syllables "sta".data = [['s'], ['t', 'a']] := by
  refine ⟨?_, ?_, by decide⟩
  · intro c v r hc hv
    have hcb : isConsCh c = true := decide_eq_true hc
    cases r with
    | nil => fin_cases hv <;> simp [tokenize_syllables, isVowelCh, vowelChars, hcb]
    | cons x xs => fin_cases hv <;> simp [tokenize_syllables, isVowelCh, vowelChars, hcb]
  · intro v r hv
    fin_cases hv <;> simp [tokenize_syllables, isVowelCh, vowelChars]

/-- Closed witness for the first-match policy: CV at the head of `"tako"`
and the digraph CV `"nga"`. -/
theorem tokenize_first_match_policy_witness :
    tokenize_syllables ('t' :: 'a' :: "ko".data) = ['t', 'a'] :: tokenize_syllables "ko".data ∧
    tokenize_syllables ('n' :: 'g' :: 'a' :: []) = ['n', 'g', 'a'] :: tokenize_syllables [] :=
  ⟨tokenize_first_match_policy.1 't' 'a' "ko".data (by decide) (by decide),
   tokenize_first_match_policy.2.1 'a' [] (by decide)⟩

/-- C6: many-to-one collapse — encoding the tokenization of `"la"`, `"te"`,
`"bo"` equals that of `"ra"`, `"ti"`, `"bu"` respectively. -/
theorem encode_many_to_one :
    wordToBaybayin "la".data = wordToBaybayin "ra".data ∧
    wordToBaybayin "te".data = wordToBaybayin "ti".data ∧
    wordToBaybayin "bo".data = wordToBaybayin "bu".data := by
  decide

/-- C7: totality — `transliterate` is a total function returning a string on
every input; evaluated here also on a hostile non-Tagalog input. -/
theorem transliterate_total :
    (∀ s : String, ∃ t : String, transliterate s = t) ∧
    transliterate "xyz!?123" = "ᜃ᜔ᜐ᜔ᜌ᜔ᜐ᜔" :=
  ⟨fun s => ⟨transliterate s, rfl⟩, by decide⟩

/-- C8: the empty string maps to the empty string, every whitespace-only
input maps to the empty string, and in general the output is the encoded
words in input order joined with single ASCII spaces. -/
theorem transliterate_empty_spaces_join :
    transliterate "" = "" ∧
    (∀ s : String, (∀ c ∈ s.data, isSpaceCh c = true) → transliterate s = "") ∧
    (∀ s : String, transliterate s =
      ⟨joinSp ((splitWs (normalize_text s.data)).map wordToBaybayin)⟩) := by
  refine ⟨by decide, ?_, ?_⟩
  · intro s h
    have h1 : transliterateL s.data = [] := by
      unfold transliterateL
      by_cases h0 : s.data = []
      · rw [if_pos h0]
      · rw [if_neg h0, normalize_of_spaces _ h,
          show splitWs s.data = [] from splitWsAux_spaces _ h]
        rfl
    show String.mk (transliterateL s.data) = ""
    rw [h1]
  · intro s
    refine congrArg String.mk ?_
    unfold transliterateL
    by_cases h0 : s.data = []
    · rw [if_pos h0, h0]
      rfl
    · rw [if_neg h0]

/-- Closed witness for the whitespace-only branch at the input `" \t "`. -/
theorem transliterate_spaces_witness : transliterate " \t " = "" :=
  transliterate_empty_spaces_join.2.1 " \t " (by decide)

/-- C9: the encoder never fails on unmapped input — the empty token encodes
to the empty string, and a token whose leading unit is neither a vowel nor a
consonant-table key (no `ng` prefix, head not a consonant letter) is returned
unchanged. -/
theorem syllable_to_baybayin_fallback :
    syllable_to_baybayin [] = [] ∧
    (∀ c cs, c ∉ vowelChars → consGlyphCh c = none → ¬(c = 'n' ∧ cs.head? = some 'g') →
      syllable_to_baybayin (c :: cs) = c :: cs) := by
  refine ⟨rfl, ?_⟩
  intro c cs hv hcg hng
  have h5 : c ≠ 'a' ∧ c ≠ 'e' ∧ c ≠ 'i' ∧ c ≠ 'o' ∧ c ≠ 'u' := by
    simp only [vowelChars, List.mem_cons, List.mem_singleton, not_or] at hv
    exact ⟨hv.1, hv.2.1, hv.2.2.1, hv.2.2.2.1, by simpa using hv.2.2.2.2⟩
  obtain ⟨h1, h2, h3, h4, h5'⟩ := h5
  have hvl : vowelLookup (c :: cs) = none := by
    simp [vowelLookup, h1, h2, h3, h4, h5']
  have hcl : consLookup (c :: cs) = none := by
    cases cs with
    | nil => simp [consLookup, hcg]
    | cons d ds =>
      cases ds with
      | nil =>
        have hnd : ¬(c = 'n' ∧ d = 'g') := by
          intro hh
          exact hng ⟨hh.1, by simp [hh.2]⟩
        simp [consLookup, hnd]
      | cons e es => simp [consLookup]
  simp [syllable_to_baybayin, hvl, hcl, hng, hcg]

/-- Closed witness for the encoder fallback at the unmapped token `"1a"`. -/
theorem syllable_to_baybayin_fallback_witness :
    syllable_to_baybayin ['1', 'a'] = ['1', 'a'] :=
  syllable_to_baybayin_fallback.2 '1' ['a'] (by decide) rfl (by decide)

end Baybayin
